import Mathlib

/-!
# Ghost-dependencies CLI: specifier extraction and project scanning

A shallow embedding of the core of `src/index.ts`:

* `listImports` — parse a source file (the parser `@typescript-eslint/typescript-estree`
  is an external collaborator; we model a file by its parse result, a JavaScript value
  tree) and collect every module specifier referenced by a static `import` declaration
  or a `require(...)` call, walking the whole tree generically.
* `scanProjectForDeps` — walk a directory tree, skip `node_modules` and `dist`
  directories, run `listImports` on every `.ts`/`.js` file, and accumulate
  `dep.split("/")[0]` of every returned specifier into a set.

JavaScript values are modelled by `JVal`; `import` statements from the original file
are external-library bindings, not part of the verified core.
-/

/-- A JavaScript value as produced by the ESTree parser: strings, numbers
(modelled by `Int`; the specifier logic never does float arithmetic), booleans,
`null`/`undefined` (conflated: both are falsy non-objects, which is the only way
the walker observes them), arrays, and objects as ordered field lists. -/
inductive JVal where
  | str : String → JVal
  | num : Int → JVal
  | boolean : Bool → JVal
  | null : JVal
  | arr : List JVal → JVal
  | obj : List (String × JVal) → JVal

/-- Property access `v[k]`: on an object, the first field named `k`
(JavaScript objects have unique keys; trees we reason about never repeat a key);
on any non-object, `undefined` (`none`). -/
def jsGet (v : JVal) (k : String) : Option JVal :=
  match v with
  | .obj fs => (fs.find? (fun p => p.1 == k)).map Prod.snd
  | _ => none

/-- JavaScript truthiness of the values the walker can meet. -/
def truthy : JVal → Bool
  | .str s => s != ""
  | .num n => n != 0
  | .boolean b => b
  | .null => false
  | .arr _ => true
  | .obj _ => true

/-- `typeof v === "object" && v !== null`. -/
def objLike : JVal → Bool
  | .arr _ => true
  | .obj _ => true
  | _ => false

/-- `node.callee?.type === "Identifier" && node.callee.name === "require"`. -/
def isRequireCallee (v : JVal) : Bool :=
  match jsGet v "callee" with
  | some c =>
      (match jsGet c "type" with
       | some (.str t) => t == "Identifier"
       | _ => false)
      &&
      (match jsGet c "name" with
       | some (.str n) => n == "require"
       | _ => false)
  | none => false

/-- `node.arguments?.[0]`: first element of an array, property `"0"` of an
object; on a primitive the follow-up `arg.type === "Literal"` test fails anyway,
so `none` is observationally the same. -/
def firstArg (v : JVal) : Option JVal :=
  match jsGet v "arguments" with
  | some (.arr xs) => xs.head?
  | some (.obj fs) => jsGet (.obj fs) "0"
  | _ => none

/-- The `switch (node.type)` of `walkNode`: the specifiers the node itself adds to
the `imports` set.  An `ImportDeclaration` adds `node.source?.value` when truthy;
a `CallExpression` whose callee is the bare identifier `require` adds its first
argument's value when that argument is a `Literal` holding a string. -/
def contrib (v : JVal) : List JVal :=
  match jsGet v "type" with
  | some (.str "ImportDeclaration") =>
      match jsGet v "source" with
      | some src =>
          match jsGet src "value" with
          | some w => if truthy w then [w] else []
          | none => []
      | none => []
  | some (.str "CallExpression") =>
      if isRequireCallee v then
        match firstArg v with
        | some a =>
            match jsGet a "type", jsGet a "value" with
            | some (.str "Literal"), some (.str s) => [.str s]
            | _, _ => []
        | none => []
      else []
  | _ => []

mutual

/-- `walkNode` of `listImports`: emit the node's own `contrib`, then recurse into
every field (`for (const key in node)`).  Called on arrays (possible when an array
element is itself an array), the for-in loop runs over the elements. -/
def walkNode : JVal → List JVal
  | .obj fs => contrib (.obj fs) ++ walkFields fs
  | .arr xs => contrib (.arr xs) ++ walkValues xs
  | v => contrib v

/-- Field-by-field recursion of the `for (const key in node)` loop on an object. -/
def walkFields : List (String × JVal) → List JVal
  | [] => []
  | (_, v) :: rest => walkValue v ++ walkFields rest

/-- Element-by-element recursion of the for-in loop on an array node. -/
def walkValues : List JVal → List JVal
  | [] => []
  | v :: rest => walkValue v ++ walkValues rest

/-- One field value: an array gets `value.forEach(child => ... walkNode(child))`,
an object gets `walkNode(value)` (inlined here for structural recursion),
scalars and null are ignored. -/
def walkValue : JVal → List JVal
  | .arr ys => walkElems ys
  | .obj fs => contrib (.obj fs) ++ walkFields fs
  | _ => []

/-- `value.forEach(child => typeof child === "object" && child !== null &&
walkNode(child))`: object-like elements are walked as nodes (`walkNode` inlined),
the rest skipped. -/
def walkElems : List JVal → List JVal
  | [] => []
  | .obj fs :: rest => (contrib (.obj fs) ++ walkFields fs) ++ walkElems rest
  | .arr xs :: rest => (contrib (.arr xs) ++ walkValues xs) ++ walkElems rest
  | _ :: rest => walkElems rest

end

mutual

/-- Structural equality test on `JVal` (used for the `Set` deduplication below;
the JavaScript `Set` compares the string specifiers of interest by value). -/
def jvalBeq : JVal → JVal → Bool
  | .str a, .str b => a == b
  | .num a, .num b => a == b
  | .boolean a, .boolean b => a == b
  | .null, .null => true
  | .arr a, .arr b => jvalListBeq a b
  | .obj a, .obj b => jvalFieldsBeq a b
  | _, _ => false

def jvalListBeq : List JVal → List JVal → Bool
  | [], [] => true
  | a :: as, b :: bs => jvalBeq a b && jvalListBeq as bs
  | _, _ => false

def jvalFieldsBeq : List (String × JVal) → List (String × JVal) → Bool
  | [], [] => true
  | (k, v) :: as, (l, w) :: bs => k == l && jvalBeq v w && jvalFieldsBeq as bs
  | _, _ => false

end

/-- `imports.add(x)`: a JavaScript `Set` keeps insertion order and drops an
element already present. -/
def jsSetInsert (acc : List JVal) (x : JVal) : List JVal :=
  if acc.any (fun y => jvalBeq y x) then acc else acc ++ [x]

/-- `listImports`: parse (externally), walk the whole tree, return
`Array.from(imports)` — the collected specifiers in insertion order without
duplicates.  The argument is the parsed tree. -/
def listImports (ast : JVal) : List JVal :=
  (walkNode ast).foldl jsSetInsert []

example : listImports (.obj [("type", .str "ImportDeclaration"),
    ("source", .obj [("type", .str "Literal"), ("value", .str "react")])])
    = [.str "react"] := by rfl

/-! ## Specifier normalization and the project scan -/

/-- `s.split("/")` over the character list: JavaScript single-character-separator
split, never empty, one (possibly empty) word per separator gap. -/
def splitSlash : List Char → List (List Char)
  | [] => [[]]
  | c :: rest =>
      match splitSlash rest with
      | [] => [[]]
      | w :: ws => if c = '/' then [] :: w :: ws else (c :: w) :: ws

/-- `dep.split("/")[0]` — the normalization applied to every raw specifier in
`scanProjectForDeps` (line 87 of `src/index.ts`). -/
def normalizeDep (s : String) : String :=
  String.mk ((splitSlash s.data).headD [])

/-- The normalization rule as section 3 of the spec words it: split the
specifier on the slash; when the first segment begins with an at-sign the
package name is the first two segments joined by a slash; otherwise it is the
first segment alone.  Stated only to compare with `normalizeDep`. -/
def specRuleNormalize (s : String) : String :=
  match splitSlash s.data with
  | [] => ""
  | w :: ws =>
      match w with
      | '@' :: _ =>
          match ws with
          | [] => String.mk w
          | w2 :: _ => String.mk w ++ "/" ++ String.mk w2
      | _ => String.mk w

/-- A directory entry below the scanned source root.  File reading and parsing
are external collaborators (`fs`, the ESTree parser), so a file is modelled by
its name together with the outcome of parsing its text: a tree, or a parse
error (the exception `parse` throws inside `listImports`). -/
inductive FsEntry where
  | dir : String → List FsEntry → FsEntry
  | file : String → Except String JVal → FsEntry

/-- `imports.add(s)` on the scanner's `Set<string>`. -/
def jsSetAdd (acc : List String) (s : String) : List String :=
  if s ∈ acc then acc else acc ++ [s]

/-- JavaScript `s.endsWith(suffix)` as a suffix test on the character list. -/
def jsEndsWith (s suffix : String) : Bool :=
  suffix.data.isSuffixOf s.data

/-- `listImports(code).forEach(dep => imports.add(dep.split("/")[0]))`.
A non-string specifier would make `dep.split` throw a `TypeError`, which, like
any other exception, propagates out of the scan. -/
def addDeps : List JVal → List String → Except String (List String)
  | [], acc => .ok acc
  | .str s :: rest, acc => addDeps rest (jsSetAdd acc (normalizeDep s))
  | _ :: _, _ => .error "TypeError: dep.split is not a function"

mutual

/-- One iteration of `scanDir`'s entry loop: a directory is recursed into unless
named `node_modules` or `dist`; a `.ts`/`.js` file is read, extracted and its
normalized specifiers added; anything else is skipped.  Exceptions (parse
errors, the `TypeError` above) propagate. -/
def scanEntry : FsEntry → List String → Except String (List String)
  | .dir nm es, acc =>
      if nm = "node_modules" || nm = "dist" then .ok acc else scanEntries es acc
  | .file nm c, acc =>
      if jsEndsWith nm ".ts" || jsEndsWith nm ".js" then
        match c with
        | .error e => .error e
        | .ok ast => addDeps (listImports ast) acc
      else .ok acc

/-- `scanDir`: entries of one directory processed in order, threading the
accumulated set, stopping at the first exception. -/
def scanEntries : List FsEntry → List String → Except String (List String)
  | [], acc => .ok acc
  | e :: rest, acc =>
      match scanEntry e acc with
      | .error err => .error err
      | .ok acc2 => scanEntries rest acc2

end

/-- `scanProjectForDeps`: scan the project's `src` directory (given by its
entries) starting from an empty set. -/
def scanProjectForDeps (src : List FsEntry) : Except String (List String) :=
  scanEntries src []

/-! ## Concrete syntax trees used by the scenarios -/

/-- An ESTree `Literal` node holding a string. -/
def literalNode (s : String) : JVal :=
  .obj [("type", .str "Literal"), ("value", .str s), ("raw", .str s)]

/-- `import <local> from "<spec>"`. -/
def importDefaultNode (localName spec : String) : JVal :=
  .obj [("type", .str "ImportDeclaration"),
        ("specifiers", .arr [.obj [("type", .str "ImportDefaultSpecifier"),
          ("local", .obj [("type", .str "Identifier"), ("name", .str localName)])]]),
        ("source", literalNode spec)]

/-- A bare `import "<spec>"`. -/
def importBareNode (spec : String) : JVal :=
  .obj [("type", .str "ImportDeclaration"),
        ("specifiers", .arr []),
        ("source", literalNode spec)]

/-- `require(<arg>)`. -/
def requireCallNode (arg : JVal) : JVal :=
  .obj [("type", .str "CallExpression"),
        ("callee", .obj [("type", .str "Identifier"), ("name", .str "require")]),
        ("arguments", .arr [arg]),
        ("optional", .boolean false)]

/-- `const <name> = <init>;`. -/
def constDeclNode (name : String) (init : JVal) : JVal :=
  .obj [("type", .str "VariableDeclaration"),
        ("kind", .str "const"),
        ("declarations", .arr [.obj [("type", .str "VariableDeclarator"),
          ("id", .obj [("type", .str "Identifier"), ("name", .str name)]),
          ("init", init)]])]

/-- A module `Program` root node. -/
def programNode (body : List JVal) : JVal :=
  .obj [("type", .str "Program"), ("body", .arr body), ("sourceType", .str "module")]

/-- Parse result of `src/a.ts` of the section-8 scenario: `import x from "left-pad"`. -/
def progA : JVal := programNode [importDefaultNode "x" "left-pad"]

/-- Parse result of `src/b.js` of the scenario: `const y = require("@babel/core")`. -/
def progB : JVal := programNode [constDeclNode "y" (requireCallNode (literalNode "@babel/core"))]

/-- The scenario's source root: `src/a.ts` and `src/b.js`. -/
def fsScenario : List FsEntry := [.file "a.ts" (.ok progA), .file "b.js" (.ok progB)]

/-- Parse result of a file whose single statement is the bare `import ""`. -/
def progImportEmpty : JVal := programNode [importBareNode ""]

/-- Parse result of a file whose single statement is `require("")`. -/
def progRequireEmpty : JVal :=
  programNode [.obj [("type", .str "ExpressionStatement"),
    ("expression", requireCallNode (literalNode ""))]]

/-- The non-literal argument `someVariable` of a dynamic `require`. -/
def someVariableNode : JVal := .obj [("type", .str "Identifier"), ("name", .str "someVariable")]

/-- Parse result of a file whose single statement is `require(someVariable)`. -/
def progRequireVar : JVal :=
  programNode [.obj [("type", .str "ExpressionStatement"),
    ("expression", requireCallNode someVariableNode)]]

/-- Parse result of `src/c.ts` of the relative-import scenario: `import "./local-util"`. -/
def progC : JVal := programNode [importBareNode "./local-util"]

/-- Source root of the relative-import scenario. -/
def fsRelative : List FsEntry := [.file "c.ts" (.ok progC)]

/-! ## Reachability of a node by the tree walk

`Reaches true root m` says the traversal started by `walkNode root` eventually
invokes the walker on the node `m` (so `m`'s own `contrib` is emitted);
`Reaches false v m` says the same for the traversal of the field value `v`.
The constructors mirror exactly the recursion of `walkNode`. -/

inductive Reaches : Bool → JVal → JVal → Prop where
  | here (v : JVal) : Reaches true v v
  | field {fs : List (String × JVal)} {k : String} {v m : JVal} :
      (k, v) ∈ fs → Reaches false v m → Reaches true (.obj fs) m
  | elemVal {xs : List JVal} {v m : JVal} :
      v ∈ xs → Reaches false v m → Reaches true (.arr xs) m
  | valObj {fs : List (String × JVal)} {m : JVal} :
      Reaches true (.obj fs) m → Reaches false (.obj fs) m
  | valElem {ys : List JVal} {y m : JVal} :
      y ∈ ys → objLike y = true → Reaches true y m → Reaches false (.arr ys) m

theorem walkNode_obj (fs : List (String × JVal)) :
    walkNode (.obj fs) = contrib (.obj fs) ++ walkFields fs := by
  simp [walkNode]

theorem walkNode_arr (xs : List JVal) :
    walkNode (.arr xs) = contrib (.arr xs) ++ walkValues xs := by
  simp [walkNode]

theorem walkValue_obj (fs : List (String × JVal)) :
    walkValue (.obj fs) = walkNode (.obj fs) := by
  simp [walkValue, walkNode]

theorem walkValue_arr (ys : List JVal) :
    walkValue (.arr ys) = walkElems ys := by
  simp [walkValue]

theorem walkFields_cons (k : String) (v : JVal) (rest : List (String × JVal)) :
    walkFields ((k, v) :: rest) = walkValue v ++ walkFields rest := by
  simp [walkFields]

theorem walkValues_cons (v : JVal) (rest : List JVal) :
    walkValues (v :: rest) = walkValue v ++ walkValues rest := by
  simp [walkValues]

theorem walkElems_cons (y : JVal) (rest : List JVal) :
    walkElems (y :: rest) = (if objLike y then walkNode y else []) ++ walkElems rest := by
  cases y <;> simp [walkElems, objLike, walkNode]

theorem contrib_subset_walkNode {x v : JVal} (h : x ∈ contrib v) : x ∈ walkNode v := by
  cases v <;>
    first
      | (rw [walkNode_obj]; exact List.mem_append_left _ h)
      | (rw [walkNode_arr]; exact List.mem_append_left _ h)
      | (simpa [walkNode] using h)

theorem mem_walkFields {x v : JVal} {k : String} :
    ∀ {fs : List (String × JVal)}, (k, v) ∈ fs → x ∈ walkValue v → x ∈ walkFields fs
  | [], h, _ => absurd h (List.not_mem_nil _)
  | (k2, v2) :: rest, h, hx => by
      rw [walkFields_cons]
      rcases List.mem_cons.mp h with heq | htl
      · cases heq
        exact List.mem_append_left _ hx
      · exact List.mem_append_right _ (mem_walkFields htl hx)

theorem mem_walkValues {x v : JVal} :
    ∀ {xs : List JVal}, v ∈ xs → x ∈ walkValue v → x ∈ walkValues xs
  | [], h, _ => absurd h (List.not_mem_nil _)
  | v2 :: rest, h, hx => by
      rw [walkValues_cons]
      rcases List.mem_cons.mp h with heq | htl
      · cases heq
        exact List.mem_append_left _ hx
      · exact List.mem_append_right _ (mem_walkValues htl hx)

theorem mem_walkElems {x y : JVal} :
    ∀ {ys : List JVal}, y ∈ ys → objLike y = true → x ∈ walkNode y → x ∈ walkElems ys
  | [], h, _, _ => absurd h (List.not_mem_nil _)
  | y2 :: rest, h, hobj, hx => by
      rw [walkElems_cons]
      rcases List.mem_cons.mp h with heq | htl
      · cases heq
        rw [if_pos hobj]
        exact List.mem_append_left _ hx
      · exact List.mem_append_right _ (mem_walkElems htl hobj hx)

/-- Whatever a reached node contributes is in the output of the walk
(at a node position when the flag is true, at a value position otherwise). -/
theorem reaches_contrib_mem {b : Bool} {root m x : JVal}
    (h : Reaches b root m) (hx : x ∈ contrib m) :
    x ∈ cond b (walkNode root) (walkValue root) := by
  induction h with
  | here v => exact contrib_subset_walkNode hx
  | field hmem _ ih =>
      show x ∈ walkNode (.obj _)
      rw [walkNode_obj]
      exact List.mem_append_right _ (mem_walkFields hmem (ih hx))
  | elemVal hmem _ ih =>
      show x ∈ walkNode (.arr _)
      rw [walkNode_arr]
      exact List.mem_append_right _ (mem_walkValues hmem (ih hx))
  | valObj _ ih =>
      show x ∈ walkValue (.obj _)
      rw [walkValue_obj]
      exact ih hx
  | valElem hmem hobj _ ih =>
      show x ∈ walkValue (.arr _)
      rw [walkValue_arr]
      exact mem_walkElems hmem hobj (ih hx)

theorem jvalBeq_str_right {y : JVal} {X : String}
    (h : jvalBeq y (.str X) = true) : y = .str X := by
  cases y <;> simp [jvalBeq] at h ⊢
  exact h

theorem str_mem_foldl {X : String} :
    ∀ (l : List JVal) (acc : List JVal),
      (JVal.str X ∈ acc ∨ JVal.str X ∈ l) →
      JVal.str X ∈ l.foldl jsSetInsert acc
  | [], acc, h => by
      rcases h with h | h
      · simpa using h
      · exact absurd h (List.not_mem_nil _)
  | v :: rest, acc, h => by
      rw [List.foldl_cons]
      apply str_mem_foldl rest
      rcases h with h | h
      · left
        unfold jsSetInsert
        split
        · exact h
        · exact List.mem_append_left _ h
      · rcases List.mem_cons.mp h with heq | htl
        · subst heq
          left
          unfold jsSetInsert
          split
          · next hany =>
              rcases List.any_eq_true.mp hany with ⟨y, hy, hbeq⟩
              exact (jvalBeq_str_right hbeq) ▸ hy
          · exact List.mem_append_right _ (by simp)
        · exact Or.inr htl

/-- Membership in the walk output survives the Set deduplication of `listImports`. -/
theorem str_mem_listImports {X : String} {ast : JVal}
    (h : JVal.str X ∈ walkNode ast) : JVal.str X ∈ listImports ast :=
  str_mem_foldl (walkNode ast) [] (Or.inr h)

/-! ## The scan's set never holds a slash -/

theorem splitSlash_ne_nil : ∀ (l : List Char), splitSlash l ≠ []
  | [] => by simp [splitSlash]
  | c :: rest => by
      have h := splitSlash_ne_nil rest
      unfold splitSlash
      split
      · simp
      · split <;> simp

theorem splitSlash_headD (l : List Char) :
    (splitSlash l).headD [] = l.takeWhile (fun c => c != '/') := by
  induction l with
  | nil => simp [splitSlash]
  | cons c rest ih =>
      unfold splitSlash
      rcases hs : splitSlash rest with _ | ⟨w, ws⟩
      · exact absurd hs (splitSlash_ne_nil rest)
      · rw [hs] at ih
        by_cases hc : c = '/'
        · subst hc
          simp [List.takeWhile_cons]
        · simp only [if_neg hc]
          simp only [List.headD_cons] at ih ⊢
          simp [List.takeWhile_cons, hc, ih]

/-- The normalized package name `dep.split("/")[0]` contains no slash. -/
theorem normalizeDep_no_slash (s : String) : '/' ∉ (normalizeDep s).data := by
  intro hmem
  unfold normalizeDep at hmem
  rw [splitSlash_headD] at hmem
  have := List.mem_takeWhile_imp hmem
  simp at this

theorem mem_jsSetAdd {x s : String} {acc : List String}
    (h : x ∈ jsSetAdd acc s) : x ∈ acc ∨ x = s := by
  unfold jsSetAdd at h
  split at h
  · exact Or.inl h
  · rcases List.mem_append.mp h with h | h
    · exact Or.inl h
    · exact Or.inr (by simpa using h)

/-- Every string produced by the `forEach`-accumulation step is either carried
over from the accumulator or is the normalization of some raw specifier. -/
theorem addDeps_shape :
    ∀ (deps : List JVal) (acc out : List String),
      addDeps deps acc = .ok out →
      ∀ x ∈ out, x ∈ acc ∨ ∃ s, x = normalizeDep s
  | [], acc, out, h, x, hx => by
      have : acc = out := by simpa [addDeps] using h
      exact Or.inl (this ▸ hx)
  | .str s :: rest, acc, out, h, x, hx => by
      rw [show addDeps (.str s :: rest) acc = addDeps rest (jsSetAdd acc (normalizeDep s))
        from rfl] at h
      rcases addDeps_shape rest _ out h x hx with hin | hnorm
      · rcases mem_jsSetAdd hin with hin | heq
        · exact Or.inl hin
        · exact Or.inr ⟨s, heq⟩
      · exact Or.inr hnorm
  | .num n :: rest, acc, out, h, x, hx => by simp [addDeps] at h
  | .boolean b :: rest, acc, out, h, x, hx => by simp [addDeps] at h
  | .null :: rest, acc, out, h, x, hx => by simp [addDeps] at h
  | .arr a :: rest, acc, out, h, x, hx => by simp [addDeps] at h
  | .obj o :: rest, acc, out, h, x, hx => by simp [addDeps] at h

mutual

/-- Scanning one entry only ever adds normalized specifiers to the set. -/
theorem scanEntry_shape :
    ∀ (e : FsEntry) (acc out : List String),
      scanEntry e acc = .ok out →
      ∀ x ∈ out, x ∈ acc ∨ ∃ s, x = normalizeDep s
  | .dir nm es, acc, out, h, x, hx => by
      rw [show scanEntry (.dir nm es) acc
            = if nm = "node_modules" || nm = "dist" then .ok acc else scanEntries es acc
          from rfl] at h
      split at h
      · cases h
        exact Or.inl hx
      · exact scanEntries_shape es acc out h x hx
  | .file nm c, acc, out, h, x, hx => by
      simp only [scanEntry] at h
      split at h
      · cases c with
        | error e => cases h
        | ok ast => exact addDeps_shape (listImports ast) acc out h x hx
      · cases h
        exact Or.inl hx

/-- Scanning a list of entries only ever adds normalized specifiers. -/
theorem scanEntries_shape :
    ∀ (es : List FsEntry) (acc out : List String),
      scanEntries es acc = .ok out →
      ∀ x ∈ out, x ∈ acc ∨ ∃ s, x = normalizeDep s
  | [], acc, out, h, x, hx => by
      have : acc = out := by
        rw [show scanEntries [] acc = .ok acc from rfl] at h
        cases h
        rfl
      exact Or.inl (this ▸ hx)
  | e :: rest, acc, out, h, x, hx => by
      rw [show scanEntries (e :: rest) acc
            = (match scanEntry e acc with
               | .error err => .error err
               | .ok acc2 => scanEntries rest acc2)
          from rfl] at h
      rcases hse : scanEntry e acc with err | acc2
      · rw [hse] at h
        cases h
      · rw [hse] at h
        rcases scanEntries_shape rest acc2 out h x hx with hin | hnorm
        · exact scanEntry_shape e acc acc2 hse x hin
        · exact Or.inr hnorm

end

theorem reaches_walkNode {root m x : JVal}
    (h : Reaches true root m) (hx : x ∈ contrib m) : x ∈ walkNode root :=
  reaches_contrib_mem h hx

theorem scanEntries_nil (acc : List String) : scanEntries [] acc = .ok acc := rfl

theorem scanEntries_cons_ok {e : FsEntry} {rest : List FsEntry} {acc acc2 : List String}
    (h : scanEntry e acc = .ok acc2) :
    scanEntries (e :: rest) acc = scanEntries rest acc2 := by
  simp only [scanEntries, h]

theorem scanEntries_cons_error {e : FsEntry} {rest : List FsEntry} {acc : List String}
    {err : String} (h : scanEntry e acc = .error err) :
    scanEntries (e :: rest) acc = .error err := by
  simp only [scanEntries, h]

/-! ## The claims -/

/-- C1: the spec's section-3 normalization rule says "lodash/fp" normalizes to
"lodash", "@scope/pkg/sub/path" to "@scope/pkg" and "react" to "react"; but the
code's normalization, `dep.split("/")[0]`, keeps only the first segment even for
scoped packages, so "@scope/pkg/sub/path" is reduced to "@scope", diverging from
the stated rule. -/
theorem claim1_normalization_diverges_on_scoped :
    normalizeDep "lodash/fp" = "lodash" ∧
    normalizeDep "react" = "react" ∧
    normalizeDep "@scope/pkg/sub/path" = "@scope" ∧
    specRuleNormalize "@scope/pkg/sub/path" = "@scope/pkg" ∧
    normalizeDep "@scope/pkg/sub/path" ≠ specRuleNormalize "@scope/pkg/sub/path" := by
  refine ⟨rfl, rfl, rfl, rfl, ?_⟩
  decide

/-- C2: on the scenario project (src/a.ts importing "left-pad", src/b.js
requiring "@babel/core") the scan returns the set {"left-pad", "@babel"} —
NOT {"left-pad", "@babel/core"} as the claim states, because
`dep.split("/")[0]` truncates the scoped package name. -/
theorem claim2_scenario_scan_result :
    scanProjectForDeps fsScenario = .ok ["left-pad", "@babel"] ∧
    "@babel/core" ∉ ["left-pad", "@babel"] := by
  exact ⟨rfl, by decide⟩

/-- C3 counterexample: a file whose only statement is the (syntactically valid)
bare import with the empty-string specifier, `import ""`, yields an extraction
result that does not contain "": the truthiness guard `node.source?.value`
rejects the empty string. -/
theorem claim3_cex_empty_import : JVal.str "" ∉ listImports progImportEmpty := by
  have h : listImports progImportEmpty = [] := rfl
  rw [h]
  exact List.not_mem_nil _

/-- C3 (amended: the literal specifier must be nonempty): whenever the walk
reaches an ImportDeclaration node whose source carries a nonempty string literal
value X — anywhere in the tree, no matter what else was matched — X is in the
extractor's result set. -/
theorem claim3_import_literal_extracted (root m src : JVal) (X : String)
    (hne : X ≠ "")
    (hty : jsGet m "type" = some (.str "ImportDeclaration"))
    (hsrc : jsGet m "source" = some src)
    (hval : jsGet src "value" = some (.str X))
    (hreach : Reaches true root m) :
    JVal.str X ∈ listImports root := by
  have hc : contrib m = [.str X] := by
    simp [contrib, hty, hsrc, hval, truthy, hne]
  have hmem : JVal.str X ∈ contrib m := by
    rw [hc]
    exact List.mem_singleton_self _
  exact str_mem_listImports (reaches_walkNode hreach hmem)

/-- C3 witness: the scenario file src/a.ts, `import x from "left-pad"`. -/
theorem claim3_witness : JVal.str "left-pad" ∈ listImports progA :=
  claim3_import_literal_extracted progA (importDefaultNode "x" "left-pad")
    (literalNode "left-pad") "left-pad" (by decide) rfl rfl rfl
    (Reaches.field (k := "body")
      (List.Mem.tail _ (List.Mem.head _))
      (Reaches.valElem (List.Mem.head _) rfl (Reaches.here _)))

/-- C4: whenever the walk reaches a CallExpression node whose callee is the bare
identifier `require` and whose first argument is a Literal node holding the
string X, X is in the extractor's result set. -/
theorem claim4_require_literal_extracted (root m a : JVal) (X : String)
    (hty : jsGet m "type" = some (.str "CallExpression"))
    (hreq : isRequireCallee m = true)
    (harg : firstArg m = some a)
    (haty : jsGet a "type" = some (.str "Literal"))
    (haval : jsGet a "value" = some (.str X))
    (hreach : Reaches true root m) :
    JVal.str X ∈ listImports root := by
  have hc : contrib m = [.str X] := by
    unfold contrib
    rw [hty]
    simp [hreq, harg, haty, haval]
  have hmem : JVal.str X ∈ contrib m := by
    rw [hc]
    exact List.mem_singleton_self _
  exact str_mem_listImports (reaches_walkNode hreach hmem)

/-- C4 witness: the scenario file src/b.js, `const y = require("@babel/core")`. -/
theorem claim4_witness : JVal.str "@babel/core" ∈ listImports progB :=
  claim4_require_literal_extracted progB
    (requireCallNode (literalNode "@babel/core")) (literalNode "@babel/core")
    "@babel/core" rfl rfl rfl rfl rfl
    (Reaches.field (k := "body")
      (List.Mem.tail _ (List.Mem.head _))
      (Reaches.valElem (List.Mem.head _) rfl
        (Reaches.field (k := "declarations")
          (List.Mem.tail _ (List.Mem.tail _ (List.Mem.head _)))
          (Reaches.valElem (List.Mem.head _) rfl
            (Reaches.field (k := "init")
              (List.Mem.tail _ (List.Mem.tail _ (List.Mem.head _)))
              (Reaches.valObj (Reaches.here _)))))))

/-- C5: a `require` call whose first argument is not a string Literal (an
identifier, template string, any other expression, or a Literal holding a
non-string) contributes no specifier: its own contribution to the walk is
empty, and the walk — a total function — carries on over the rest of the tree
instead of failing. -/
theorem claim5_require_nonliteral_skipped (m a : JVal)
    (hty : jsGet m "type" = some (.str "CallExpression"))
    (hreq : isRequireCallee m = true)
    (harg : firstArg m = some a)
    (hnl : ∀ s : String,
      ¬(jsGet a "type" = some (.str "Literal") ∧ jsGet a "value" = some (.str s))) :
    contrib m = [] := by
  unfold contrib
  rw [hty]
  simp only [hreq, if_true, harg]
  split
  · next s h1 h2 => exact absurd ⟨h1, h2⟩ (hnl s)
  · rfl

/-- C5 witness: `require(someVariable)` contributes nothing. -/
theorem claim5_witness : contrib (requireCallNode someVariableNode) = [] :=
  claim5_require_nonliteral_skipped (requireCallNode someVariableNode)
    someVariableNode rfl rfl rfl
    (fun s h => by
      have h1 : some (JVal.str "Identifier") = some (JVal.str "Literal") := h.1
      have h2 := Option.some.inj h1
      have h3 : "Identifier" = "Literal" := by injection h2
      exact absurd h3 (by decide))

/-- C6: a directory named exactly `node_modules` or `dist` is never descended
into: scanning it returns the accumulator unchanged, and a directory list
containing it anywhere scans to exactly what the same list without it scans to
(so files below it contribute nothing, whatever they import). -/
theorem claim6_excluded_dirs (nm : String) (hnm : nm = "node_modules" ∨ nm = "dist")
    (es pre post : List FsEntry) (acc : List String) :
    scanEntry (.dir nm es) acc = .ok acc ∧
    scanEntries (pre ++ .dir nm es :: post) acc = scanEntries (pre ++ post) acc := by
  have hskip : ∀ acc' : List String, scanEntry (.dir nm es) acc' = .ok acc' := by
    intro acc'
    simp only [scanEntry]
    rcases hnm with h | h <;> simp [h]
  refine ⟨hskip acc, ?_⟩
  induction pre generalizing acc with
  | nil =>
      simp only [List.nil_append]
      rw [scanEntries_cons_ok (hskip acc)]
  | cons e rest ih =>
      simp only [List.cons_append]
      rcases hse : scanEntry e acc with err | acc2
      · rw [scanEntries_cons_error hse, scanEntries_cons_error hse]
      · rw [scanEntries_cons_ok hse, scanEntries_cons_ok hse]
        exact ih acc2

/-- C6 witness: a nested node_modules directory with a file importing
"lodash" contributes nothing to the scenario scan. -/
theorem claim6_witness :
    scanEntry (.dir "node_modules"
        [.file "x.ts" (.ok (programNode [importDefaultNode "l" "lodash"]))]) [] = .ok [] ∧
    scanEntries
        ([] ++ FsEntry.dir "node_modules"
          [.file "x.ts" (.ok (programNode [importDefaultNode "l" "lodash"]))] :: fsScenario) []
      = scanEntries ([] ++ fsScenario) [] :=
  claim6_excluded_dirs "node_modules" (Or.inl rfl)
    [.file "x.ts" (.ok (programNode [importDefaultNode "l" "lodash"]))] [] fsScenario []

/-- C7: a parse error on any scanned `.ts`/`.js` file aborts the whole scan:
once the entries before the failing file have been processed successfully, the
scan of the full list returns the error — never an incomplete set. -/
theorem claim7_parse_error_propagates (pre post : List FsEntry) (nm e : String)
    (acc acc1 : List String)
    (hext : jsEndsWith nm ".ts" = true ∨ jsEndsWith nm ".js" = true)
    (hpre : scanEntries pre acc = .ok acc1) :
    scanEntries (pre ++ .file nm (.error e) :: post) acc = .error e := by
  have hfile : ∀ acc' : List String, scanEntry (.file nm (.error e)) acc' = .error e := by
    intro acc'
    simp only [scanEntry]
    rcases hext with h | h <;> simp [h]
  induction pre generalizing acc with
  | nil =>
      simp only [List.nil_append]
      rw [scanEntries_cons_error (hfile acc)]
  | cons e2 rest ih =>
      simp only [List.cons_append]
      rcases hse : scanEntry e2 acc with err | acc2
      · rw [scanEntries_cons_error hse] at hpre
        cases hpre
      · rw [scanEntries_cons_ok hse] at hpre
        rw [scanEntries_cons_ok hse]
        exact ih acc2 hpre

/-- C7 witness: a broken file after the scenario's two good files kills the scan. -/
theorem claim7_witness :
    scanEntries (fsScenario ++ FsEntry.file "broken.ts" (.error "ParseError") :: []) []
      = .error "ParseError" :=
  claim7_parse_error_propagates fsScenario [] "broken.ts" "ParseError" []
    ["left-pad", "@babel"] (Or.inl rfl) rfl

/-- C8: relative specifiers are not filtered: a project whose only file is
src/c.ts with `import "./local-util"` scans to the set containing exactly ".",
the substring of the relative specifier before its first slash. -/
theorem claim8_relative_not_filtered :
    scanProjectForDeps fsRelative = .ok ["."] := rfl

/-- C9: every element of a successful scan's set is the part of some raw
specifier before its first "/", hence contains no slash at all; in particular
the two-segment name "@babel/core" can never be an element. -/
theorem claim9_no_slash_invariant (src : List FsEntry) (out : List String)
    (h : scanProjectForDeps src = .ok out) :
    (∀ x ∈ out, '/' ∉ x.data) ∧ "@babel/core" ∉ out := by
  have hshape := scanEntries_shape src [] out h
  have hns : ∀ x ∈ out, '/' ∉ x.data := by
    intro x hx
    rcases hshape x hx with hin | ⟨s, rfl⟩
    · exact absurd hin (List.not_mem_nil _)
    · exact normalizeDep_no_slash s
  refine ⟨hns, fun hmem => ?_⟩
  have := hns "@babel/core" hmem
  simp at this

/-- C9 witness: the scenario scan. -/
theorem claim9_witness :
    (∀ x ∈ ["left-pad", "@babel"], '/' ∉ x.data) ∧
    "@babel/core" ∉ ["left-pad", "@babel"] :=
  claim9_no_slash_invariant fsScenario ["left-pad", "@babel"] rfl

/-- C10: the extractor's empty-string asymmetry: the bare `import ""` contributes
nothing (the truthiness guard rejects ""), while `require("")` does put the
empty string into the result set (only a typeof-string check guards it). -/
theorem claim10_empty_string_asymmetry :
    listImports progImportEmpty = [] ∧ listImports progRequireEmpty = [.str ""] :=
  ⟨rfl, rfl⟩
